import Mathlib

/-!
Verification of the agentic e-commerce recommendation pipeline.

The repository ships only the command-line wrapper and the test suite for the
pipeline; the pipeline itself (query interpretation, aggregation, scoring,
ranking) is reconstructed here from the specification, faithfully to its words,
and its contractual properties are proved against that reconstruction.
-/

namespace AgenticCommerce

/-- Modelled from the spec: Money value type — exact decimal amount plus
currency, modelling the missing `Money` class of the pipeline module. -/
structure Money where
  amount : ℚ
  currency : String
deriving DecidableEq

/-- Modelled from the spec: the structured query produced by the Query
Interpreter, modelling the missing `UserQuery` class. -/
structure UserQuery where
  raw : String
  budget : Option Money
  must_have : List String
  nice_to_have : List String
  category : Option String
deriving DecidableEq

/-- Modelled from the spec: a retailer offer with current price, append-only
price history and stock flag, modelling the missing `Offer` class. -/
structure Offer where
  retailer : String
  url : String
  price : Money
  price_history : List (Nat × Money)
  in_stock : Bool
deriving DecidableEq

/-- Modelled from the spec: a product candidate, modelling the missing
`Product` class; identity is the `id` field. -/
structure Product where
  id : String
  title : String
  category : Option String
  features : List String
  offers : List Offer
deriving DecidableEq

/-- Modelled from the spec: a customer review with a bounded rating, modelling
the missing `Review` class. -/
structure Review where
  author : String
  rating : ℚ
  text : Option String
  timestamp : Nat
deriving DecidableEq

/-- Modelled from the spec: a single recommendation, modelling the missing
`Recommendation` class. -/
structure Recommendation where
  product : Product
  score : ℚ
  best_offer : Option Offer
  rationale : String
deriving DecidableEq

/-- The title a recommendation displays is its product's title. -/
def Recommendation.title (r : Recommendation) : String := r.product.title

/-- Modelled from the spec: the immutable top-level pipeline result, modelling
the missing `RecommendationResult` class. -/
structure RecommendationResult where
  query : UserQuery
  recommendations : List Recommendation
deriving DecidableEq

/-- Value of a decimal digit character, none for a non-digit. -/
def digitVal (c : Char) : Option Nat :=
  if '0' ≤ c ∧ c ≤ '9' then some (c.toNat - '0'.toNat) else none

/-- Parse an all-digit character list, accumulating left to right. -/
def parseDigitsAux (acc : Nat) : List Char → Option Nat
  | [] => some acc
  | c :: cs =>
    match digitVal c with
    | some d => parseDigitsAux (acc * 10 + d) cs
    | none => none

/-- Parse a nonempty all-digit token. -/
def parseDigits : List Char → Option Nat
  | [] => none
  | l => parseDigitsAux 0 l

/-- Split a character list into whitespace-separated tokens. -/
def wordsAux (cur : List Char) : List Char → List (List Char)
  | [] => [cur.reverse]
  | c :: cs => if c = ' ' then cur.reverse :: wordsAux [] cs else wordsAux (c :: cur) cs

/-- Modelled from the spec: a currency-prefixed or currency-suffixed numeric
token, part of the missing Query Interpreter's budget extraction. -/
def parseMoneyToken (t : List Char) : Option ℚ :=
  match t with
  | '$' :: rest => (parseDigits rest).map (fun n => (n : ℚ))
  | _ =>
    match t.reverse with
    | '$' :: rest => (parseDigits rest.reverse).map (fun n => (n : ℚ))
    | _ => none

/-- Modelled from the spec: budget extraction of the missing Query Interpreter —
the first currency-marked numeric token of the raw text becomes the budget. -/
def extractBudget (raw : String) : Option ℚ :=
  (wordsAux [] raw.toList).findSome? parseMoneyToken

/-- Modelled from the spec: the default currency unit for Money. -/
def defaultCurrency : String := "USD"

/-- Modelled from the spec: the missing Query Interpreter. Explicit parameters
take precedence over anything inferred from the text; with no explicit budget
the first currency-marked numeric token of the raw text becomes the budget,
and if no pattern matches the budget stays absent; it never fails. -/
def interpret (raw : String) (budget : Option ℚ) (must_have nice_to_have : List String)
    (category : Option String) : UserQuery :=
  ⟨raw,
   match budget with
   | some b => some ⟨b, defaultCurrency⟩
   | none => (extractBudget raw).map (fun b => ⟨b, defaultCurrency⟩),
   must_have, nice_to_have, category⟩

/-- Of two offers keep the cheaper one, preferring the earlier on ties. -/
def cheaper (a b : Offer) : Offer :=
  if b.price.amount < a.price.amount then b else a

/-- Lowest-price offer of a list, if any. -/
def minByPrice : List Offer → Option Offer
  | [] => none
  | o :: os => some (os.foldl cheaper o)

/-- Modelled from the spec: best-offer selection of the missing Diversifier and
Ranker — the lowest-price in-stock offer; if none is in stock, the lowest-price
offer overall; absent when there are no offers at all. -/
def bestOffer (offers : List Offer) : Option Offer :=
  match minByPrice (offers.filter (fun o => o.in_stock)) with
  | some o => some o
  | none => minByPrice offers

/-- Clamp a rational into the unit interval. -/
def clamp01 (x : ℚ) : ℚ := max 0 (min 1 x)

/-- How many of the given tags appear in the feature set. -/
def countPresent (tags feats : List String) : Nat :=
  (tags.filter (fun t => feats.contains t)).length

/-- Modelled from the spec: constraint-satisfaction signal of the missing
Scorer. A product carrying every must-have tag starts from a high base plus
smaller nice-to-have increments; any missing must-have tag applies a steep
penalty confining the signal near the bottom, without eliminating the
candidate. -/
def constraintScore (q : UserQuery) (p : Product) : ℚ :=
  if countPresent q.must_have p.features = q.must_have.length then
    7/10 + 3/10 * clamp01 ((countPresent q.nice_to_have p.features : ℚ) / (q.nice_to_have.length : ℚ))
  else
    1/10 * clamp01 ((countPresent q.must_have p.features : ℚ) / (q.must_have.length : ℚ))

/-- Modelled from the spec: price fit of one price against a set budget — a
small bonus proportional to the margin under budget, a penalty proportional to
the overage above it. -/
def priceFit (b price : ℚ) : ℚ :=
  if price ≤ b then 1/2 + 1/10 * clamp01 ((b - price) / b)
  else 1/2 - 1/2 * clamp01 ((price - b) / b)

/-- Modelled from the spec: price-fit signal of the missing Scorer — neutral
without a budget or without an offer, otherwise the fit of the best offer's
price against the budget. -/
def priceScore (budget : Option ℚ) (offers : List Offer) : ℚ :=
  match budget with
  | none => 1/2
  | some b =>
    match bestOffer offers with
    | none => 1/2
    | some o => priceFit b o.price.amount

/-- Modelled from the spec: review signal of the missing Scorer — normalized
average rating weighted by review count; zero reviews yield the neutral middle
score, not zero. -/
def reviewScore (reviews : List Review) : ℚ :=
  if reviews.isEmpty then 1/2
  else
    1/2 + (reviews.length : ℚ) / ((reviews.length : ℚ) + 5) *
      (clamp01 ((((reviews.map (fun r => r.rating)).sum / (reviews.length : ℚ)) - 1) / 4) - 1/2)

/-- Modelled from the spec: the missing Scorer — a weighted combination of
constraint satisfaction, price fit and review signal, monotone in each signal
and bounded to the unit interval. -/
def score (p : Product) (offers : List Offer) (reviews : List Review) (q : UserQuery) : ℚ :=
  4/5 * constraintScore q p + 1/10 * priceScore (q.budget.map (fun m => m.amount)) offers
    + 1/10 * reviewScore reviews

/-- Modelled from the spec: the three provider capability contracts the missing
Aggregator depends on. A fallible provider call is modelled as an Option
result, none being a failed fetch. -/
structure Providers where
  search : UserQuery → List Product
  offers : Product → Option (List Offer)
  fetch_reviews : Product → Nat → Option (List Review)

/-- Modelled from the spec: the review-count limit the aggregator requests. -/
def reviewLimit : Nat := 20

/-- Modelled from the spec: one candidate after aggregation, the write-once
per-candidate slot of the missing Aggregator. -/
structure Aggregated where
  product : Product
  offers : List Offer
  reviews : List Review
deriving DecidableEq

/-- Modelled from the spec: per-candidate fetch of the missing Aggregator with
local failure recovery — a failed fetch yields an empty result for that signal
only. -/
def fetchCandidate (P : Providers) (p : Product) : Aggregated :=
  ⟨p, (P.offers p).getD [], (P.fetch_reviews p reviewLimit).getD []⟩

/-- Modelled from the spec: the missing Aggregator — every candidate is
retained, with empty offers and reviews when its fetches fail. -/
def aggregate (P : Providers) (candidates : List Product) : List Aggregated :=
  candidates.map (fetchCandidate P)

/-- An aggregated candidate together with its computed score. -/
structure ScoredCandidate where
  product : Product
  offers : List Offer
  reviews : List Review
  score : ℚ
deriving DecidableEq

/-- Attach the computed score to an aggregated candidate. -/
def scoreCandidate (q : UserQuery) (a : Aggregated) : ScoredCandidate :=
  ⟨a.product, a.offers, a.reviews, score a.product a.offers a.reviews q⟩

/-- Modelled from the spec: ranking order of the missing Diversifier and
Ranker — descending score, ties broken deterministically by product id. -/
def rankOrder (a b : ScoredCandidate) : Prop :=
  b.score < a.score ∨ (a.score = b.score ∧ a.product.id ≤ b.product.id)

instance : DecidableRel rankOrder := fun a b => by
  unfold rankOrder; infer_instance

instance : IsTotal ScoredCandidate rankOrder where
  total a b := by
    rcases lt_trichotomy a.score b.score with h | h | h
    · exact Or.inr (Or.inl h)
    · rcases le_total a.product.id b.product.id with hid | hid
      · exact Or.inl (Or.inr ⟨h, hid⟩)
      · exact Or.inr (Or.inr ⟨h.symm, hid⟩)
    · exact Or.inl (Or.inl h)

instance : IsTrans ScoredCandidate rankOrder where
  trans a b c hab hbc := by
    rcases hab with hab | ⟨hab, haid⟩
    · rcases hbc with hbc | ⟨hbc, _⟩
      · exact Or.inl (hbc.trans hab)
      · exact Or.inl (hbc ▸ hab)
    · rcases hbc with hbc | ⟨hbc, hbid⟩
      · exact Or.inl (hab ▸ hbc)
      · exact Or.inr ⟨hab.trans hbc, haid.trans hbid⟩

/-- Modelled from the spec: the brand token of a product is the first
whitespace-separated token of its title. -/
def brandOf (p : Product) : String :=
  ((wordsAux [] p.title.toList).headD []).asString

/-- How many already-chosen candidates carry the given brand token. -/
def countBrand (l : List ScoredCandidate) (b : String) : Nat :=
  (l.filter (fun s => brandOf s.product == b)).length

/-- Modelled from the spec: greedy diversity pass of the missing Diversifier
and Ranker. Walking the score-sorted candidates, an item is chosen while fewer
than top-k are chosen and its brand is below the cap; otherwise it is skipped,
keeping its rank among the skipped for the score-ordered refill. -/
def diversify (cap topk : Nat) (chosen skipped : List ScoredCandidate) :
    List ScoredCandidate → List ScoredCandidate × List ScoredCandidate
  | [] => (chosen, skipped)
  | x :: rest =>
    if topk ≤ chosen.length then (chosen, skipped ++ x :: rest)
    else if countBrand chosen (brandOf x.product) < cap then
      diversify cap topk (chosen ++ [x]) skipped rest
    else diversify cap topk chosen (skipped ++ [x]) rest

/-- Modelled from the spec: the diversity cap — at most the ceiling of half of
top-k entries may share a brand token in the first selection pass. -/
def diversityCap (topk : Nat) : Nat := (topk + 1) / 2

/-- Modelled from the spec: the missing Rationale Synthesizer — deterministic
template text citing the dominant signals, never internal numeric weights. -/
def explain (q : UserQuery) (p : Product) (offers : List Offer) (reviews : List Review) : String :=
  (if countPresent q.must_have p.features = q.must_have.length then
    "Meets every required feature" else "Missing some required features") ++
  (match q.budget, bestOffer offers with
   | some b, some o =>
     if o.price.amount ≤ b.amount then ", fits within the budget" else ", exceeds the budget"
   | _, _ => "") ++
  (if reviews.isEmpty then "" else ", supported by customer reviews") ++ "."

/-- Build the recommendation a scored candidate yields. -/
def mkRecommendation (q : UserQuery) (sc : ScoredCandidate) : Recommendation :=
  ⟨sc.product, sc.score, bestOffer sc.offers, explain q sc.product sc.offers sc.reviews⟩

/-- Modelled from the spec: diversity-aware selection — the first-pass picks
under the cap, then the remaining slots are refilled by score from the skipped
candidates, truncated to top-k. -/
def selectDiverse (topk : Nat) (sorted : List ScoredCandidate) : List ScoredCandidate :=
  ((diversify (diversityCap topk) topk [] [] sorted).1 ++
    (diversify (diversityCap topk) topk [] [] sorted).2).take topk

/-- Modelled from the spec: the missing Diversifier and Ranker — sort by
descending score with deterministic tie-break, select under the brand-diversity
cap refilling by score when too few distinct brands exist, truncate to top-k,
and emit the selection ordered by descending score. -/
def rank (q : UserQuery) (scored : List ScoredCandidate) (topk : Nat) : List Recommendation :=
  (List.insertionSort rankOrder (selectDiverse topk (List.insertionSort rankOrder scored))).map
    (mkRecommendation q)

/-- Modelled from the spec: the missing single entry point of the pipeline —
interpret, search, aggregate, score, rank; it always returns a
RecommendationResult. -/
def generate_recommendations (P : Providers) (raw_query : String) (budget : Option ℚ)
    (must_have nice_to_have : List String) (category : Option String) (top_k : Nat) :
    RecommendationResult :=
  let q := interpret raw_query budget must_have nice_to_have category
  let candidates := P.search q
  let scored := (aggregate P candidates).map (scoreCandidate q)
  ⟨q, rank q scored top_k⟩

/-- Modelled from the spec: each candidate's aggregation slot is write-once and
keyed by the candidate; completed fetch results are merged back onto the
candidate list by product id, whatever order they complete in. -/
def mergeArrival (candidates : List Product) (delivered : List Aggregated) : List Aggregated :=
  candidates.map (fun c => (delivered.find? (fun a => a.product.id == c.id)).getD ⟨c, [], []⟩)

/-- Modelled from the spec: the pipeline observed under an arbitrary completion
order of the concurrent per-candidate fetches. -/
def generate_recommendations_arrival (P : Providers) (raw_query : String) (budget : Option ℚ)
    (must_have nice_to_have : List String) (category : Option String) (top_k : Nat)
    (delivered : List Aggregated) : RecommendationResult :=
  let q := interpret raw_query budget must_have nice_to_have category
  let candidates := P.search q
  let scored := (mergeArrival candidates delivered).map (scoreCandidate q)
  ⟨q, rank q scored top_k⟩

/-- Sample query with no constraints, for concrete instantiations. -/
def sampleQuery : UserQuery := ⟨"earbuds", none, [], [], none⟩

/-- Sample query requiring the wireless tag. -/
def strictQuery : UserQuery := ⟨"wireless earbuds", none, ["wireless"], [], none⟩

/-- Sample query with an explicit budget of 100. -/
def budgetQuery : UserQuery := ⟨"earbuds", some ⟨100, "USD"⟩, [], [], none⟩

/-- Sample product without feature tags. -/
def plainProduct : Product := ⟨"p1", "Acme Buds", none, [], []⟩

/-- Sample product of another brand carrying the wireless tag. -/
def wirelessProduct : Product := ⟨"p2", "Brio Buds", none, ["wireless"], []⟩

/-- Sample in-stock offer at 90. -/
def sampleOfferA : Offer := ⟨"ShopA", "urlA", ⟨90, "USD"⟩, [], true⟩

/-- Sample out-of-stock offer at 80. -/
def sampleOfferB : Offer := ⟨"ShopB", "urlB", ⟨80, "USD"⟩, [], false⟩

/-- Sample in-stock offer far above the sample budget. -/
def overOffer : Offer := ⟨"ShopC", "urlC", ⟨250, "USD"⟩, [], true⟩

/-- Sample in-stock offer under the sample budget. -/
def underOffer : Offer := ⟨"ShopD", "urlD", ⟨80, "USD"⟩, [], true⟩

/-- Sample scored candidate holding both sample offers. -/
def sampleScored : ScoredCandidate := ⟨plainProduct, [sampleOfferA, sampleOfferB], [], 1⟩

/-- Sample scored candidate of the first brand. -/
def scoredA : ScoredCandidate := ⟨plainProduct, [], [], 1⟩

/-- Sample scored candidate of the second brand. -/
def scoredB : ScoredCandidate := ⟨wirelessProduct, [], [], 0⟩

/-- Provider set whose search finds nothing. -/
def emptyProviders : Providers := ⟨fun _ => [], fun _ => some [], fun _ _ => some []⟩

/-- Provider set whose offer and review fetches always fail. -/
def failingProviders : Providers := ⟨fun _ => [plainProduct], fun _ => none, fun _ _ => none⟩

/-- Deterministic provider set finding two products of distinct brands. -/
def detProviders : Providers :=
  ⟨fun _ => [plainProduct, wirelessProduct], fun _ => some [], fun _ _ => some []⟩

/-! ## Bounds of the scoring signals -/

theorem clamp01_nonneg (x : ℚ) : 0 ≤ clamp01 x := le_max_left 0 _

theorem clamp01_le_one (x : ℚ) : clamp01 x ≤ 1 := max_le (by norm_num) (min_le_left 1 x)

theorem clamp01_pos {x : ℚ} (h : 0 < x) : 0 < clamp01 x :=
  lt_max_of_lt_right (lt_min one_pos h)

theorem constraintScore_bounds (q : UserQuery) (p : Product) :
    0 ≤ constraintScore q p ∧ constraintScore q p ≤ 1 := by
  unfold constraintScore
  split
  · constructor <;>
      linarith [clamp01_nonneg ((countPresent q.nice_to_have p.features : ℚ) / (q.nice_to_have.length : ℚ)),
        clamp01_le_one ((countPresent q.nice_to_have p.features : ℚ) / (q.nice_to_have.length : ℚ))]
  · constructor <;>
      linarith [clamp01_nonneg ((countPresent q.must_have p.features : ℚ) / (q.must_have.length : ℚ)),
        clamp01_le_one ((countPresent q.must_have p.features : ℚ) / (q.must_have.length : ℚ))]

theorem constraintScore_of_sat (q : UserQuery) (p : Product)
    (h : countPresent q.must_have p.features = q.must_have.length) :
    7/10 ≤ constraintScore q p := by
  unfold constraintScore
  rw [if_pos h]
  linarith [clamp01_nonneg ((countPresent q.nice_to_have p.features : ℚ) / (q.nice_to_have.length : ℚ))]

theorem constraintScore_of_missing (q : UserQuery) (p : Product)
    (h : countPresent q.must_have p.features ≠ q.must_have.length) :
    constraintScore q p ≤ 1/10 := by
  unfold constraintScore
  rw [if_neg h]
  linarith [clamp01_le_one ((countPresent q.must_have p.features : ℚ) / (q.must_have.length : ℚ))]

theorem priceFit_bounds (b price : ℚ) : 0 ≤ priceFit b price ∧ priceFit b price ≤ 1 := by
  unfold priceFit
  split
  · constructor <;>
      linarith [clamp01_nonneg ((b - price) / b), clamp01_le_one ((b - price) / b)]
  · constructor <;>
      linarith [clamp01_nonneg ((price - b) / b), clamp01_le_one ((price - b) / b)]

theorem priceScore_none (offers : List Offer) : priceScore none offers = 1/2 := rfl

theorem priceScore_some_none (b : ℚ) (offers : List Offer) (h : bestOffer offers = none) :
    priceScore (some b) offers = 1/2 := by
  unfold priceScore
  rw [h]

theorem priceScore_some_some (b : ℚ) (offers : List Offer) (o : Offer)
    (h : bestOffer offers = some o) :
    priceScore (some b) offers = priceFit b o.price.amount := by
  unfold priceScore
  rw [h]

theorem priceScore_bounds (budget : Option ℚ) (offers : List Offer) :
    0 ≤ priceScore budget offers ∧ priceScore budget offers ≤ 1 := by
  rcases budget with _ | b
  · rw [priceScore_none]; norm_num
  · rcases h : bestOffer offers with _ | o
    · rw [priceScore_some_none b offers h]; norm_num
    · rw [priceScore_some_some b offers o h]; exact priceFit_bounds b o.price.amount

theorem half_blend_bounds {w x : ℚ} (hw0 : 0 ≤ w) (hw1 : w ≤ 1) (hx0 : 0 ≤ x) (hx1 : x ≤ 1) :
    0 ≤ 1/2 + w * (x - 1/2) ∧ 1/2 + w * (x - 1/2) ≤ 1 := by
  constructor <;> nlinarith [mul_nonneg hw0 hx0, mul_le_of_le_one_right hw0 hx1]

theorem reviewScore_bounds (reviews : List Review) :
    0 ≤ reviewScore reviews ∧ reviewScore reviews ≤ 1 := by
  unfold reviewScore
  split
  · norm_num
  · have hn : (0:ℚ) ≤ (reviews.length : ℚ) := Nat.cast_nonneg _
    have hw0 : (0:ℚ) ≤ (reviews.length : ℚ) / ((reviews.length : ℚ) + 5) :=
      div_nonneg hn (by linarith)
    have hw1 : (reviews.length : ℚ) / ((reviews.length : ℚ) + 5) ≤ 1 :=
      div_le_one_of_le₀ (by linarith) (by linarith)
    exact half_blend_bounds hw0 hw1
      (clamp01_nonneg ((((reviews.map (fun r => r.rating)).sum / (reviews.length : ℚ)) - 1) / 4))
      (clamp01_le_one ((((reviews.map (fun r => r.rating)).sum / (reviews.length : ℚ)) - 1) / 4))

/-- C4: for every product, offer list, review list, and query, the score lies
in the closed interval from 0 to 1. -/
theorem score_mem_unit_interval (p : Product) (offers : List Offer) (reviews : List Review)
    (q : UserQuery) : 0 ≤ score p offers reviews q ∧ score p offers reviews q ≤ 1 := by
  obtain ⟨h1, h2⟩ := constraintScore_bounds q p
  obtain ⟨h3, h4⟩ := priceScore_bounds (q.budget.map (fun m => m.amount)) offers
  obtain ⟨h5, h6⟩ := reviewScore_bounds reviews
  unfold score
  constructor <;> linarith

/-! ## Price fit and the budget -/

theorem priceFit_over_lt_under {B pOver pUnder : ℚ} (hB : 0 < B) (hover : B < pOver)
    (hunder : pUnder ≤ B) : priceFit B pOver < priceFit B pUnder := by
  unfold priceFit
  rw [if_neg (not_le.mpr hover), if_pos hunder]
  have h1 : 0 < clamp01 ((pOver - B) / B) := clamp01_pos (div_pos (by linarith) hB)
  have h2 : 0 ≤ clamp01 ((B - pUnder) / B) := clamp01_nonneg _
  linarith

/-- C5: with a positive budget B set in the query, a product whose best offer
price exceeds B scores strictly lower than the otherwise-identical product
whose best offer price is under B. -/
theorem over_budget_scores_strictly_lower (p : Product) (reviews : List Review) (q : UserQuery)
    (B : ℚ) (offersOver offersUnder : List Offer) (oOver oUnder : Offer)
    (hq : q.budget.map (fun m => m.amount) = some B) (hB : 0 < B)
    (hover : bestOffer offersOver = some oOver) (hoverP : B < oOver.price.amount)
    (hunder : bestOffer offersUnder = some oUnder) (hunderP : oUnder.price.amount ≤ B) :
    score p offersOver reviews q < score p offersUnder reviews q := by
  unfold score
  rw [hq, priceScore_some_some B offersOver oOver hover,
    priceScore_some_some B offersUnder oUnder hunder]
  have := priceFit_over_lt_under hB hoverP hunderP
  linarith

/-! ## Constraint satisfaction as a predicate on tags -/

theorem countPresent_eq_iff (tags feats : List String) :
    countPresent tags feats = tags.length ↔ ∀ t ∈ tags, t ∈ feats := by
  unfold countPresent
  constructor
  · intro h t ht
    have hsub := List.filter_sublist (p := fun t => feats.contains t) tags
    have heq := hsub.eq_of_length_le (le_of_eq h.symm)
    have hall := List.filter_eq_self.mp heq t ht
    simpa using hall
  · intro h
    rw [List.filter_eq_self.mpr]
    intro t ht
    simpa using h t ht

theorem countPresent_ne_of_missing (tags feats : List String)
    (h : ∃ t ∈ tags, t ∉ feats) : countPresent tags feats ≠ tags.length := by
  intro heq
  obtain ⟨t, ht, hf⟩ := h
  exact hf ((countPresent_eq_iff tags feats).mp heq t ht)

theorem score_missing_lt_sat (q : UserQuery) (p p' : Product)
    (offersP : List Offer) (reviewsP : List Review)
    (offersP' : List Offer) (reviewsP' : List Review)
    (hmiss : ∃ t ∈ q.must_have, t ∉ p.features)
    (hsat : ∀ t ∈ q.must_have, t ∈ p'.features) :
    score p offersP reviewsP q < score p' offersP' reviewsP' q := by
  have h1 : constraintScore q p ≤ 1/10 :=
    constraintScore_of_missing q p (countPresent_ne_of_missing _ _ hmiss)
  have h2 : 7/10 ≤ constraintScore q p' :=
    constraintScore_of_sat q p' ((countPresent_eq_iff _ _).mpr hsat)
  obtain ⟨h3, h4⟩ := priceScore_bounds (q.budget.map (fun m => m.amount)) offersP
  obtain ⟨h5, h6⟩ := priceScore_bounds (q.budget.map (fun m => m.amount)) offersP'
  obtain ⟨h7, h8⟩ := reviewScore_bounds reviewsP
  obtain ⟨h9, h10⟩ := reviewScore_bounds reviewsP'
  unfold score
  linarith

/-! ## Invariants of the greedy diversity pass -/

theorem countBrand_append (l₁ l₂ : List ScoredCandidate) (b : String) :
    countBrand (l₁ ++ l₂) b = countBrand l₁ b + countBrand l₂ b := by
  unfold countBrand
  rw [List.filter_append, List.length_append]

theorem countBrand_singleton (x : ScoredCandidate) (b : String) :
    countBrand [x] b = if brandOf x.product = b then 1 else 0 := by
  unfold countBrand
  by_cases h : brandOf x.product = b <;> simp [h]

theorem diversify_perm (cap topk : Nat) (chosen skipped l : List ScoredCandidate) :
    List.Perm
      ((diversify cap topk chosen skipped l).1 ++ (diversify cap topk chosen skipped l).2)
      (chosen ++ skipped ++ l) := by
  induction l generalizing chosen skipped with
  | nil => simp [diversify]
  | cons x rest ih =>
    unfold diversify
    split
    · simp [List.append_assoc]
    · split
      · have hmid : List.Perm ((chosen ++ [x]) ++ ((skipped ++ rest)))
            (chosen ++ (skipped ++ (x :: rest))) := by
          have heq : (chosen ++ [x]) ++ (skipped ++ rest) = chosen ++ (x :: (skipped ++ rest)) := by
            simp
          rw [heq]
          exact List.Perm.append_left chosen List.perm_middle.symm
        have := (ih (chosen ++ [x]) skipped).trans (by simpa using hmid)
        simpa using this
      · have heq : chosen ++ ((skipped ++ [x]) ++ rest) = chosen ++ (skipped ++ (x :: rest)) := by
          simp
        have := ih chosen (skipped ++ [x])
        rw [List.append_assoc] at this ⊢
        simpa [heq] using this

theorem diversify_chosen_extends (cap topk : Nat) (chosen skipped l : List ScoredCandidate) :
    ∃ e, (diversify cap topk chosen skipped l).1 = chosen ++ e := by
  induction l generalizing chosen skipped with
  | nil => exact ⟨[], by simp [diversify]⟩
  | cons x rest ih =>
    unfold diversify
    split
    · exact ⟨[], by simp⟩
    · split
      · obtain ⟨e, he⟩ := ih (chosen ++ [x]) skipped
        exact ⟨x :: e, by rw [he]; simp⟩
      · exact ih chosen (skipped ++ [x])

theorem diversify_chosen_cap (cap topk : Nat) (chosen skipped l : List ScoredCandidate)
    (h : ∀ b, countBrand chosen b ≤ cap) :
    ∀ b, countBrand (diversify cap topk chosen skipped l).1 b ≤ cap := by
  induction l generalizing chosen skipped with
  | nil => simpa [diversify] using h
  | cons x rest ih =>
    unfold diversify
    split
    · simpa using h
    · split
      · rename_i hcnt
        refine ih (chosen ++ [x]) skipped ?_
        intro b
        rw [countBrand_append, countBrand_singleton]
        by_cases hb : brandOf x.product = b
        · rw [if_pos hb]
          rw [hb] at hcnt
          omega
        · rw [if_neg hb]
          have := h b
          omega
      · exact ih chosen (skipped ++ [x]) h

theorem diversify_chosen_length (cap topk : Nat) (chosen skipped l : List ScoredCandidate)
    (h : chosen.length ≤ topk) :
    (diversify cap topk chosen skipped l).1.length ≤ topk := by
  induction l generalizing chosen skipped with
  | nil => simpa [diversify] using h
  | cons x rest ih =>
    unfold diversify
    split
    · simpa using h
    · rename_i hlt
      split
      · refine ih (chosen ++ [x]) skipped ?_
        rw [List.length_append]
        simp only [List.length_singleton]
        omega
      · exact ih chosen (skipped ++ [x]) h

theorem diversify_skipped_cap (cap topk : Nat) (chosen skipped l : List ScoredCandidate) :
    (diversify cap topk chosen skipped l).1.length < topk →
      ∀ s ∈ (diversify cap topk chosen skipped l).2,
        s ∈ skipped ∨ cap ≤ countBrand (diversify cap topk chosen skipped l).1 (brandOf s.product) := by
  induction l generalizing chosen skipped with
  | nil =>
    intro _ s hs
    simp only [diversify] at hs ⊢
    exact Or.inl hs
  | cons x rest ih =>
    unfold diversify
    by_cases hg : topk ≤ chosen.length
    · rw [if_pos hg]
      intro hC
      exact absurd (by simpa using hC) (Nat.not_lt.mpr hg)
    · rw [if_neg hg]
      by_cases hcnt : countBrand chosen (brandOf x.product) < cap
      · rw [if_pos hcnt]
        exact ih (chosen ++ [x]) skipped
      · rw [if_neg hcnt]
        intro hC s hs
        rcases ih chosen (skipped ++ [x]) hC s hs with hmem | hcap
        · rcases List.mem_append.mp hmem with h | h
          · exact Or.inl h
          · have hx : s = x := by simpa using h
            subst hx
            right
            obtain ⟨e, he⟩ := diversify_chosen_extends cap topk chosen (skipped ++ [s]) rest
            rw [he, countBrand_append]
            have := Nat.le_of_not_lt hcnt
            omega
        · exact Or.inr hcap

/-! ## Basic shape of the ranked output -/

theorem rankOrder_score_le {a b : ScoredCandidate} (h : rankOrder a b) : b.score ≤ a.score := by
  rcases h with h | ⟨h, _⟩
  · exact le_of_lt h
  · exact le_of_eq h.symm

theorem selectDiverse_perm (topk : Nat) (sorted : List ScoredCandidate) :
    List.Perm
      ((diversify (diversityCap topk) topk [] [] sorted).1 ++
        (diversify (diversityCap topk) topk [] [] sorted).2)
      sorted := by
  simpa using diversify_perm (diversityCap topk) topk [] [] sorted

theorem selectDiverse_length (topk : Nat) (sorted : List ScoredCandidate) :
    (selectDiverse topk sorted).length = min topk sorted.length := by
  unfold selectDiverse
  rw [List.length_take, (selectDiverse_perm topk sorted).length_eq]

theorem rank_length (q : UserQuery) (scored : List ScoredCandidate) (topk : Nat) :
    (rank q scored topk).length = min topk scored.length := by
  unfold rank
  rw [List.length_map, List.length_insertionSort, selectDiverse_length,
    List.length_insertionSort]

/-- C1: for every provider set and every call, the returned recommendations
sequence has length at most top-k and its scores are non-increasing along the
sequence. -/
theorem recommendations_bounded_and_sorted (P : Providers) (raw_query : String)
    (budget : Option ℚ) (must_have nice_to_have : List String) (category : Option String)
    (top_k : Nat) :
    (generate_recommendations P raw_query budget must_have nice_to_have category
        top_k).recommendations.length ≤ top_k ∧
      (generate_recommendations P raw_query budget must_have nice_to_have category
          top_k).recommendations.Pairwise (fun a b => b.score ≤ a.score) := by
  constructor
  · show (rank _ _ top_k).length ≤ top_k
    rw [rank_length]
    exact Nat.min_le_left _ _
  · show (rank _ _ top_k).Pairwise (fun a b => b.score ≤ a.score)
    unfold rank
    rw [List.pairwise_map]
    refine (List.sorted_insertionSort rankOrder _).imp ?_
    intro a b h
    exact rankOrder_score_le h

/-- C2: when the search provider returns zero candidates, the pipeline still
returns a RecommendationResult whose recommendations sequence is empty. -/
theorem no_candidates_yields_empty (P : Providers) (raw_query : String) (budget : Option ℚ)
    (must_have nice_to_have : List String) (category : Option String) (top_k : Nat)
    (h : P.search (interpret raw_query budget must_have nice_to_have category) = []) :
    (generate_recommendations P raw_query budget must_have nice_to_have category
      top_k).recommendations = [] := by
  show rank _ ((aggregate P (P.search _)).map _) top_k = []
  rw [h]
  have : (rank (interpret raw_query budget must_have nice_to_have category)
      ((aggregate P []).map (scoreCandidate (interpret raw_query budget must_have nice_to_have
        category))) top_k).length = 0 := by
    rw [rank_length]
    simp [aggregate]
  exact List.length_eq_zero.mp this

/-! ## Retention: the ranker truncates but never eliminates -/

theorem rank_retains (q : UserQuery) (scored : List ScoredCandidate) (topk : Nat)
    (hlen : scored.length ≤ topk) (sc : ScoredCandidate) (hsc : sc ∈ scored) :
    ∃ rec ∈ rank q scored topk, rec.product = sc.product := by
  refine ⟨mkRecommendation q sc, ?_, rfl⟩
  unfold rank
  apply List.mem_map_of_mem
  rw [List.mem_insertionSort]
  unfold selectDiverse
  have hle : ((diversify (diversityCap topk) topk [] [] (List.insertionSort rankOrder scored)).1 ++
      (diversify (diversityCap topk) topk [] [] (List.insertionSort rankOrder scored)).2).length
        ≤ topk := by
    rw [(selectDiverse_perm topk _).length_eq, List.length_insertionSort]
    exact hlen
  rw [List.take_of_length_le hle]
  refine (selectDiverse_perm topk _).mem_iff.mpr ?_
  rw [List.mem_insertionSort]
  exact hsc

/-- C3: a candidate missing some must-have tag scores strictly below every
candidate satisfying all must-have tags — the steep penalty ranks it toward
the bottom of the list — yet the ranker never removes candidates from
consideration: whenever capacity allows, every scored candidate, however
penalized, still appears among the returned recommendations. -/
theorem missing_must_have_demoted_not_removed (q : UserQuery) (p p' : Product)
    (offersP : List Offer) (reviewsP : List Review)
    (offersP' : List Offer) (reviewsP' : List Review)
    (hmiss : ∃ t ∈ q.must_have, t ∉ p.features)
    (hsat : ∀ t ∈ q.must_have, t ∈ p'.features) :
    score p offersP reviewsP q < score p' offersP' reviewsP' q ∧
      ∀ (scored : List ScoredCandidate) (topk : Nat), scored.length ≤ topk →
        ∀ sc ∈ scored, ∃ rec ∈ rank q scored topk, rec.product = sc.product :=
  ⟨score_missing_lt_sat q p p' offersP reviewsP offersP' reviewsP' hmiss hsat,
   fun scored topk hl sc hsc => rank_retains q scored topk hl sc hsc⟩

/-! ## Characterization of the best offer -/

theorem foldl_cheaper_mem (os : List Offer) (o : Offer) : os.foldl cheaper o ∈ o :: os := by
  induction os generalizing o with
  | nil => simp
  | cons x rest ih =>
    rw [List.foldl_cons]
    have h := ih (cheaper o x)
    have hc : cheaper o x = o ∨ cheaper o x = x := by
      unfold cheaper; split
      · exact Or.inr rfl
      · exact Or.inl rfl
    rcases List.mem_cons.mp h with h1 | h1
    · rcases hc with h2 | h2 <;> rw [h1, h2] <;> simp
    · simp [h1]

theorem foldl_cheaper_le (os : List Offer) (o : Offer) :
    (os.foldl cheaper o).price.amount ≤ o.price.amount ∧
      ∀ x ∈ os, (os.foldl cheaper o).price.amount ≤ x.price.amount := by
  induction os generalizing o with
  | nil => simp
  | cons x rest ih =>
    rw [List.foldl_cons]
    obtain ⟨h1, h2⟩ := ih (cheaper o x)
    have hco : (cheaper o x).price.amount ≤ o.price.amount ∧
        (cheaper o x).price.amount ≤ x.price.amount := by
      unfold cheaper
      split
      · rename_i hlt; exact ⟨le_of_lt hlt, le_refl _⟩
      · rename_i hlt; exact ⟨le_refl _, le_of_not_lt hlt⟩
    refine ⟨h1.trans hco.1, ?_⟩
    intro y hy
    rcases List.mem_cons.mp hy with rfl | hy'
    · exact h1.trans hco.2
    · exact h2 y hy'

theorem minByPrice_spec (offers : List Offer) (o : Offer) (h : minByPrice offers = some o) :
    o ∈ offers ∧ ∀ x ∈ offers, o.price.amount ≤ x.price.amount := by
  cases offers with
  | nil => simp [minByPrice] at h
  | cons a os =>
    unfold minByPrice at h
    injection h with h
    subst h
    constructor
    · exact foldl_cheaper_mem os a
    · intro x hx
      obtain ⟨h1, h2⟩ := foldl_cheaper_le os a
      rcases List.mem_cons.mp hx with rfl | hx'
      · exact h1
      · exact h2 x hx'

theorem minByPrice_isSome (offers : List Offer) (h : offers ≠ []) :
    ∃ o, minByPrice offers = some o := by
  cases offers with
  | nil => exact absurd rfl h
  | cons a os => exact ⟨os.foldl cheaper a, rfl⟩

theorem bestOffer_spec (offers : List Offer) :
    ((∃ o ∈ offers, o.in_stock = true) →
      ∃ o, bestOffer offers = some o ∧ o ∈ offers ∧ o.in_stock = true ∧
        ∀ x ∈ offers, x.in_stock = true → o.price.amount ≤ x.price.amount) ∧
    ((offers ≠ [] ∧ ∀ o ∈ offers, o.in_stock = false) →
      ∃ o, bestOffer offers = some o ∧ o ∈ offers ∧
        ∀ x ∈ offers, o.price.amount ≤ x.price.amount) ∧
    (offers = [] → bestOffer offers = none) := by
  refine ⟨?_, ?_, ?_⟩
  · rintro ⟨w, hw, hws⟩
    have hne : offers.filter (fun o => o.in_stock) ≠ [] := by
      intro hnil
      have hmem : w ∈ offers.filter (fun o => o.in_stock) :=
        List.mem_filter.mpr ⟨hw, by simpa using hws⟩
      rw [hnil] at hmem
      simp at hmem
    obtain ⟨o, ho⟩ := minByPrice_isSome _ hne
    obtain ⟨hmem, hle⟩ := minByPrice_spec _ _ ho
    have homem := List.mem_filter.mp hmem
    refine ⟨o, ?_, homem.1, by simpa using homem.2, ?_⟩
    · unfold bestOffer
      rw [ho]
    · intro x hx hxs
      exact hle x (List.mem_filter.mpr ⟨hx, by simpa using hxs⟩)
  · rintro ⟨hne, hnone⟩
    have hfil : offers.filter (fun o => o.in_stock) = [] := by
      rw [List.filter_eq_nil_iff]
      intro a ha
      simp [hnone a ha]
    obtain ⟨o, ho⟩ := minByPrice_isSome offers hne
    obtain ⟨hmem, hle⟩ := minByPrice_spec _ _ ho
    refine ⟨o, ?_, hmem, hle⟩
    unfold bestOffer
    rw [hfil]
    exact ho
  · intro h
    subst h
    rfl

theorem rank_mem_source (q : UserQuery) (scored : List ScoredCandidate) (topk : Nat)
    (rec : Recommendation) (h : rec ∈ rank q scored topk) :
    ∃ sc ∈ scored, rec = mkRecommendation q sc := by
  unfold rank at h
  obtain ⟨sc, hsc, hrec⟩ := List.mem_map.mp h
  rw [List.mem_insertionSort] at hsc
  unfold selectDiverse at hsc
  have h2 := List.take_subset topk _ hsc
  have h3 := (selectDiverse_perm topk (List.insertionSort rankOrder scored)).mem_iff.mp h2
  rw [List.mem_insertionSort] at h3
  exact ⟨sc, h3, hrec.symm⟩

/-- C6: every recommendation produced by rank draws its best offer from its
source candidate's offers as the lowest-price in-stock offer; with offers but
none in stock, as the lowest-price offer overall; and with no offers at all it
is absent. -/
theorem best_offer_characterization (q : UserQuery) (scored : List ScoredCandidate) (topk : Nat)
    (rec : Recommendation) (h : rec ∈ rank q scored topk) :
    ∃ sc ∈ scored, rec.product = sc.product ∧ rec.best_offer = bestOffer sc.offers ∧
      ((∃ o ∈ sc.offers, o.in_stock = true) →
        ∃ o, rec.best_offer = some o ∧ o ∈ sc.offers ∧ o.in_stock = true ∧
          ∀ x ∈ sc.offers, x.in_stock = true → o.price.amount ≤ x.price.amount) ∧
      ((sc.offers ≠ [] ∧ ∀ o ∈ sc.offers, o.in_stock = false) →
        ∃ o, rec.best_offer = some o ∧ o ∈ sc.offers ∧
          ∀ x ∈ sc.offers, o.price.amount ≤ x.price.amount) ∧
      (sc.offers = [] → rec.best_offer = none) := by
  obtain ⟨sc, hsc, hrec⟩ := rank_mem_source q scored topk rec h
  subst hrec
  obtain ⟨c1, c2, c3⟩ := bestOffer_spec sc.offers
  exact ⟨sc, hsc, rfl, rfl, c1, c2, c3⟩

/-! ## Brand diversity of the returned top-k -/

theorem chosen_subset_selectDiverse (topk : Nat) (sorted : List ScoredCandidate)
    (hlen : (diversify (diversityCap topk) topk [] [] sorted).1.length ≤ topk) :
    ∀ x ∈ (diversify (diversityCap topk) topk [] [] sorted).1, x ∈ selectDiverse topk sorted := by
  intro x hx
  unfold selectDiverse
  rw [List.take_append_eq_append_take, List.take_of_length_le hlen]
  exact List.mem_append_left _ hx

theorem exists_mem_of_countBrand_pos {l : List ScoredCandidate} {b : String}
    (h : 1 ≤ countBrand l b) : ∃ c ∈ l, brandOf c.product = b := by
  unfold countBrand at h
  rcases hf : l.filter (fun s => brandOf s.product == b) with _ | ⟨c, rest⟩
  · rw [hf] at h; simp at h
  · have hc : c ∈ l.filter (fun s => brandOf s.product == b) := by
      rw [hf]; exact List.mem_cons_self c rest
    have hcc := List.mem_filter.mp hc
    exact ⟨c, hcc.1, by simpa using hcc.2⟩

theorem exists_two_brands_of_cap (C : List ScoredCandidate) (cap : Nat)
    (hcap : ∀ b, countBrand C b ≤ cap) (hlen : cap < C.length) :
    ∃ a ∈ C, ∃ b ∈ C, brandOf a.product ≠ brandOf b.product := by
  cases C with
  | nil => simp at hlen
  | cons c0 rest =>
    by_cases hall : ∀ c ∈ c0 :: rest, brandOf c.product = brandOf c0.product
    · exfalso
      have hfe : (c0 :: rest).filter (fun s => brandOf s.product == brandOf c0.product) =
          c0 :: rest :=
        List.filter_eq_self.mpr (fun a ha => by simpa using hall a ha)
      have hcnt : countBrand (c0 :: rest) (brandOf c0.product) = (c0 :: rest).length := by
        unfold countBrand
        rw [hfe]
      have hle := hcap (brandOf c0.product)
      omega
    · push_neg at hall
      obtain ⟨c1, hc1, hne⟩ := hall
      exact ⟨c1, hc1, c0, List.mem_cons_self c0 rest, hne⟩

theorem rank_two_brands (q : UserQuery) (scored : List ScoredCandidate) (topk : Nat)
    (htop : 2 ≤ topk)
    (hdiv : ∃ a ∈ scored, ∃ b ∈ scored, brandOf a.product ≠ brandOf b.product) :
    ∃ r ∈ rank q scored topk, ∃ r' ∈ rank q scored topk,
      brandOf r.product ≠ brandOf r'.product := by
  suffices hsel : ∃ a ∈ selectDiverse topk (List.insertionSort rankOrder scored),
      ∃ b ∈ selectDiverse topk (List.insertionSort rankOrder scored),
        brandOf a.product ≠ brandOf b.product by
    obtain ⟨a, ha, b, hb, hne⟩ := hsel
    refine ⟨mkRecommendation q a, ?_, mkRecommendation q b, ?_, hne⟩
    · exact List.mem_map_of_mem _ ((List.mem_insertionSort rankOrder).mpr ha)
    · exact List.mem_map_of_mem _ ((List.mem_insertionSort rankOrder).mpr hb)
  have hcap0 : ∀ b, countBrand ([] : List ScoredCandidate) b ≤ diversityCap topk := by
    intro b; simp [countBrand]
  have hcapC : ∀ b,
      countBrand (diversify (diversityCap topk) topk [] []
        (List.insertionSort rankOrder scored)).1 b ≤ diversityCap topk :=
    diversify_chosen_cap _ _ _ _ _ hcap0
  have hlenC : (diversify (diversityCap topk) topk [] []
      (List.insertionSort rankOrder scored)).1.length ≤ topk :=
    diversify_chosen_length _ _ _ _ _ (by simp)
  have hsubC := chosen_subset_selectDiverse topk (List.insertionSort rankOrder scored) hlenC
  rcases Nat.lt_or_ge (diversify (diversityCap topk) topk [] []
      (List.insertionSort rankOrder scored)).1.length topk with hlt | hge
  · have hskip := diversify_skipped_cap (diversityCap topk) topk [] []
      (List.insertionSort rankOrder scored) hlt
    obtain ⟨a, ha, b, hb, hne⟩ := hdiv
    have hmem : ∀ x ∈ scored, ∃ c ∈ (diversify (diversityCap topk) topk [] []
        (List.insertionSort rankOrder scored)).1, brandOf c.product = brandOf x.product := by
      intro x hx
      have hx' : x ∈ List.insertionSort rankOrder scored :=
        (List.mem_insertionSort rankOrder).mpr hx
      have hx2 := (selectDiverse_perm topk (List.insertionSort rankOrder scored)).mem_iff.mpr hx'
      rcases List.mem_append.mp hx2 with h1 | h2
      · exact ⟨x, h1, rfl⟩
      · rcases hskip x h2 with h3 | h3
        · simp at h3
        · have hcappos : 1 ≤ diversityCap topk := by unfold diversityCap; omega
          exact exists_mem_of_countBrand_pos (le_trans hcappos h3)
    obtain ⟨ca, hca, hcab⟩ := hmem a ha
    obtain ⟨cb, hcb, hcbb⟩ := hmem b hb
    refine ⟨ca, hsubC ca hca, cb, hsubC cb hcb, ?_⟩
    rw [hcab, hcbb]
    exact hne
  · have hcaplt : diversityCap topk < topk := by unfold diversityCap; omega
    obtain ⟨a, ha, b, hb, hne⟩ := exists_two_brands_of_cap _ (diversityCap topk) hcapC
      (lt_of_lt_of_le hcaplt hge)
    exact ⟨a, hsubC a ha, b, hsubC b hb, hne⟩

/-- C7: when the candidate pool holds at least two distinct brand tokens and
enough candidates to fill top-k, the returned top-k recommendations contain at
least two distinct brand tokens; and regardless of brand repetition the ranker
returns min(top-k, candidate count) entries — remaining slots are filled by
score rather than returning fewer than requested. -/
theorem diversity_of_recommendations (q : UserQuery) (scored : List ScoredCandidate)
    (topk : Nat) (htop : 2 ≤ topk) (_hfill : topk ≤ scored.length)
    (hdiv : ∃ a ∈ scored, ∃ b ∈ scored, brandOf a.product ≠ brandOf b.product) :
    (∃ r ∈ rank q scored topk, ∃ r' ∈ rank q scored topk,
        brandOf r.product ≠ brandOf r'.product) ∧
      ∀ (scored' : List ScoredCandidate) (topk' : Nat),
        (rank q scored' topk').length = min topk' scored'.length :=
  ⟨rank_two_brands q scored topk htop hdiv, fun scored' topk' => rank_length q scored' topk'⟩

/-! ## Query interpretation -/

/-- C8: interpreting the raw text "under $1500" with no explicit budget yields
a query whose budget is present with amount 1500. -/
theorem budget_parsed_from_text :
    ∃ m, (interpret "under $1500" none [] [] none).budget = some m ∧ m.amount = 1500 := by
  refine ⟨⟨1500, defaultCurrency⟩, ?_, rfl⟩
  decide

/-! ## Failure recovery in aggregation -/

/-- C9: a provider-call failure never aborts the request — aggregation keeps
every candidate, a failed offers fetch yields empty offers for that candidate
only, a failed reviews fetch yields empty reviews, and a candidate failing
both fetches is retained with empty offers and reviews rather than dropped. -/
theorem aggregation_recovers_failures (P : Providers) (candidates : List Product)
    (c : Product) (hc : c ∈ candidates) :
    (aggregate P candidates).length = candidates.length ∧
      ∃ a ∈ aggregate P candidates, a.product = c ∧
        (P.offers c = none → a.offers = []) ∧
        (P.fetch_reviews c reviewLimit = none → a.reviews = []) := by
  constructor
  · unfold aggregate
    rw [List.length_map]
  · refine ⟨fetchCandidate P c, List.mem_map_of_mem _ hc, rfl, ?_, ?_⟩
    · intro h
      show (P.offers c).getD [] = []
      rw [h]
      rfl
    · intro h
      show (P.fetch_reviews c reviewLimit).getD [] = []
      rw [h]
      rfl

/-! ## Determinism and independence from fetch completion order -/

theorem mergeArrival_eq (P : Providers) (candidates : List Product)
    (delivered : List Aggregated)
    (hnodup : (candidates.map (fun p => p.id)).Nodup)
    (hperm : List.Perm delivered (aggregate P candidates)) :
    mergeArrival candidates delivered = aggregate P candidates := by
  unfold mergeArrival aggregate
  apply List.map_congr_left
  intro c hc
  have hmem : fetchCandidate P c ∈ delivered := by
    refine hperm.mem_iff.mpr ?_
    unfold aggregate
    exact List.mem_map_of_mem _ hc
  have hsome : (delivered.find? (fun a => a.product.id == c.id)).isSome := by
    rw [List.find?_isSome]
    exact ⟨fetchCandidate P c, hmem, by simp [fetchCandidate]⟩
  obtain ⟨a, ha⟩ := Option.isSome_iff_exists.mp hsome
  rw [ha]
  have hpa : a.product.id = c.id := by simpa using List.find?_some ha
  have hamem : a ∈ delivered := List.mem_of_find?_eq_some ha
  have hamem2 : a ∈ candidates.map (fetchCandidate P) := by
    have := hperm.mem_iff.mp hamem
    unfold aggregate at this
    exact this
  obtain ⟨c2, hc2, hac⟩ := List.mem_map.mp hamem2
  have hidc : c2.id = c.id := by
    have hap : a.product = c2 := by
      rw [← hac]
      rfl
    rw [hap] at hpa
    exact hpa
  have hcc : c2 = c := List.inj_on_of_nodup_map hnodup hc2 hc hidc
  rw [← hac, hcc]
  rfl

/-- C10: with a deterministic provider set, calling the pipeline twice on
identical inputs yields identical ranked output, and the output is unchanged
under any completion order of the concurrent per-candidate fetches — the
order of the result depends only on the computed scores through the
deterministic rank order, never on fetch completion order. -/
theorem pipeline_deterministic (P : Providers) (raw_query : String) (budget : Option ℚ)
    (must_have nice_to_have : List String) (category : Option String) (top_k : Nat)
    (delivered : List Aggregated)
    (hnodup : ((P.search (interpret raw_query budget must_have nice_to_have category)).map
      (fun p => p.id)).Nodup)
    (hperm : List.Perm delivered
      (aggregate P (P.search (interpret raw_query budget must_have nice_to_have category)))) :
    generate_recommendations_arrival P raw_query budget must_have nice_to_have category top_k
        delivered =
      generate_recommendations P raw_query budget must_have nice_to_have category top_k ∧
      generate_recommendations P raw_query budget must_have nice_to_have category top_k =
        generate_recommendations P raw_query budget must_have nice_to_have category top_k := by
  refine ⟨?_, rfl⟩
  unfold generate_recommendations_arrival generate_recommendations
  dsimp only
  rw [mergeArrival_eq P _ delivered hnodup hperm]

/-! ## Concrete instantiations -/

theorem no_candidates_yields_empty_witness :
    (generate_recommendations emptyProviders "anything" none [] [] none
      5).recommendations = [] :=
  no_candidates_yields_empty emptyProviders "anything" none [] [] none 5 rfl

theorem missing_must_have_demoted_not_removed_witness :
    score plainProduct [] [] strictQuery < score wirelessProduct [] [] strictQuery ∧
      ∀ (scored : List ScoredCandidate) (topk : Nat), scored.length ≤ topk →
        ∀ sc ∈ scored, ∃ rec ∈ rank strictQuery scored topk, rec.product = sc.product :=
  missing_must_have_demoted_not_removed strictQuery plainProduct wirelessProduct [] [] [] []
    (by decide) (by decide)

theorem over_budget_scores_strictly_lower_witness :
    score plainProduct [overOffer] [] budgetQuery <
      score plainProduct [underOffer] [] budgetQuery :=
  over_budget_scores_strictly_lower plainProduct [] budgetQuery 100 [overOffer] [underOffer]
    overOffer underOffer (by decide) (by decide) (by decide) (by decide) (by decide) (by decide)

theorem best_offer_characterization_witness :
    ∃ sc ∈ [sampleScored],
      (mkRecommendation sampleQuery sampleScored).product = sc.product ∧
        (mkRecommendation sampleQuery sampleScored).best_offer = bestOffer sc.offers ∧
        ((∃ o ∈ sc.offers, o.in_stock = true) →
          ∃ o, (mkRecommendation sampleQuery sampleScored).best_offer = some o ∧
            o ∈ sc.offers ∧ o.in_stock = true ∧
            ∀ x ∈ sc.offers, x.in_stock = true → o.price.amount ≤ x.price.amount) ∧
        ((sc.offers ≠ [] ∧ ∀ o ∈ sc.offers, o.in_stock = false) →
          ∃ o, (mkRecommendation sampleQuery sampleScored).best_offer = some o ∧
            o ∈ sc.offers ∧ ∀ x ∈ sc.offers, o.price.amount ≤ x.price.amount) ∧
        (sc.offers = [] → (mkRecommendation sampleQuery sampleScored).best_offer = none) :=
  best_offer_characterization sampleQuery [sampleScored] 1
    (mkRecommendation sampleQuery sampleScored) (by decide)

theorem diversity_of_recommendations_witness :
    (∃ r ∈ rank sampleQuery [scoredA, scoredB] 2,
        ∃ r' ∈ rank sampleQuery [scoredA, scoredB] 2,
          brandOf r.product ≠ brandOf r'.product) ∧
      ∀ (scored' : List ScoredCandidate) (topk' : Nat),
        (rank sampleQuery scored' topk').length = min topk' scored'.length :=
  diversity_of_recommendations sampleQuery [scoredA, scoredB] 2 (by decide) (by decide)
    (by decide)

theorem aggregation_recovers_failures_witness :
    (aggregate failingProviders [plainProduct]).length = [plainProduct].length ∧
      ∃ a ∈ aggregate failingProviders [plainProduct], a.product = plainProduct ∧
        (failingProviders.offers plainProduct = none → a.offers = []) ∧
        (failingProviders.fetch_reviews plainProduct reviewLimit = none → a.reviews = []) :=
  aggregation_recovers_failures failingProviders [plainProduct] plainProduct (by decide)

theorem pipeline_deterministic_witness :
    generate_recommendations_arrival detProviders "earbuds" none [] [] none 2
        [⟨wirelessProduct, [], []⟩, ⟨plainProduct, [], []⟩] =
      generate_recommendations detProviders "earbuds" none [] [] none 2 ∧
      generate_recommendations detProviders "earbuds" none [] [] none 2 =
        generate_recommendations detProviders "earbuds" none [] [] none 2 :=
  pipeline_deterministic detProviders "earbuds" none [] [] none 2
    [⟨wirelessProduct, [], []⟩, ⟨plainProduct, [], []⟩] (by decide) (by decide)

end AgenticCommerce
